import Mathlib

/-!
Verification of the cross-sectional time-series assembly engine
(trend_following_portfolios.cross_sectional_time_series.data_creator).

The embedding models a pyarrow table as a list of rows, each row keyed by
its date (an integer: the timestamp value after the cast to milliseconds)
together with the values of the remaining columns, which are nullable.
The operations mirror, in order, exactly what data_creator performs per
feature and per ticker: the date cast (identity on the integer model),
the boolean range mask and filter, the two-column select plus rename,
the accumulation step choosing a join direction by row count, the join
itself (pyarrow Table.join with its default join type, which is the left
outer join, keys coalesced, colliding right columns suffixed with "_r"),
and the ascending sort by date after every iteration. The feature loop
builds a Python dict by repeated assignment, modelled as an association
list with replace-or-append insertion. A ticker table lacking the
requested feature column raises a KeyError in pyarrow, modelled as
Except.error.
-/

namespace CrossSectional

/-- A table cell: a nullable integer value, since pyarrow cells may be null. -/
abbrev Cell := Option Int

/-- One table row: the date key together with the values of the non-date columns. -/
abbrev RowT := Int × List Cell

/-- Shallow embedding of a pyarrow table as used by data_creator: the date
column is the key of every row; cols lists the names of the remaining
columns, in order. -/
structure Table where
  cols : List String
  rows : List RowT
deriving DecidableEq

/-- The boolean mask built by pyarrow.compute.and_ of
greater_equal(date, start_date) and less_equal(date, end_date). -/
def rangeMask (startDate endDate : Int) (t : Table) : List Bool :=
  t.rows.map (fun r => decide (startDate ≤ r.1) && decide (r.1 ≤ endDate))

/-- pyarrow Table.filter: keep the rows whose mask entry is true. -/
def filterByMask : List RowT → List Bool → List RowT
  | [], _ => []
  | _ :: _, [] => []
  | r :: rs, b :: bs => if b then r :: filterByMask rs bs else filterByMask rs bs

/-- The date-range filtering step of data_creator: cast the date column
(identity on the integer model), build the mask, filter. -/
def applyRangeFilter (startDate endDate : Int) (t : Table) : Table :=
  { t with rows := filterByMask t.rows (rangeMask startDate endDate t) }

/-- Position of a named column in a column list. -/
def colIndex (c : String) : List String → Option Nat
  | [] => none
  | x :: xs => if x == c then some 0 else (colIndex c xs).map (fun i => i + 1)

/-- Table.select([column_date_tag, feature]) followed by
rename_columns([column_date_tag, ticker]): a two-column table whose value
column carries the ticker name; none when the feature column is absent,
where pyarrow raises a KeyError. -/
def selectFeature (feature ticker : String) (t : Table) : Option Table :=
  match colIndex feature t.cols with
  | none => none
  | some i => some { cols := [ticker], rows := t.rows.map (fun r => (r.1, [r.2.getD i none])) }

/-- Right-hand column renaming of pyarrow Table.join: a right column that
collides with a left column receives the right_suffix "_r". -/
def suffixName (leftCols : List String) (c : String) : String :=
  if c ∈ leftCols then c ++ "_r" else c

/-- Rows of pyarrow Table.join under its default join type, the left outer
join: every left row is kept, paired with each matching right row, or
null-padded when the right side has no matching date; unmatched right rows
are dropped. -/
def leftOuterRows (rrows : List RowT) (rlen : Nat) : List RowT → List RowT
  | [] => []
  | lr :: ls =>
      (match rrows.filter (fun rr => rr.1 == lr.1) with
       | [] => [(lr.1, lr.2 ++ List.replicate rlen none)]
       | ms => ms.map (fun rr => (lr.1, lr.2 ++ rr.2))) ++ leftOuterRows rrows rlen ls

/-- pyarrow left.join(right, keys=column_date_tag, right_suffix="_r") with
the default join_type, which is the left outer join; key columns coalesced. -/
def joinLeftOuter (l r : Table) : Table :=
  { cols := l.cols ++ r.cols.map (suffixName l.cols),
    rows := leftOuterRows r.rows r.cols.length l.rows }

/-- Insertion of one row into a date-sorted list of rows. -/
def insertRow (r : RowT) : List RowT → List RowT
  | [] => [r]
  | x :: xs => if r.1 ≤ x.1 then r :: x :: xs else x :: insertRow r xs

/-- Insertion sort of rows by date, ascending. -/
def sortRows : List RowT → List RowT
  | [] => []
  | r :: rs => insertRow r (sortRows rs)

/-- Table.sort_by([(column_date_tag, "ascending")]). -/
def sortByDate (t : Table) : Table :=
  { t with rows := sortRows t.rows }

/-- One iteration of the inner ticker loop of data_creator for a fixed
feature: filter the ticker table to the date range, project and rename the
feature column, then either initialize the accumulator (first ticker) or
left-outer-join in the direction chosen by the row-count comparison, and
sort by date. -/
def accStep (startDate endDate : Int) (feature : String)
    (acc : Option Table) (entry : String × Table) : Except Unit (Option Table) :=
  match selectFeature feature entry.1 (applyRangeFilter startDate endDate entry.2) with
  | none => Except.error ()
  | some data =>
      match acc with
      | none => Except.ok (some (sortByDate data))
      | some res =>
          if res.rows.length > data.rows.length then
            Except.ok (some (sortByDate (joinLeftOuter res data)))
          else
            Except.ok (some (sortByDate (joinLeftOuter data res)))

/-- The inner ticker loop of data_creator for one feature. -/
def assembleLoop (startDate endDate : Int) (feature : String)
    (acc : Option Table) : List (String × Table) → Except Unit (Option Table)
  | [] => Except.ok acc
  | entry :: rest =>
      match accStep startDate endDate feature acc entry with
      | Except.error u => Except.error u
      | Except.ok acc2 => assembleLoop startDate endDate feature acc2 rest

/-- Assembly of one feature across all tickers, starting from the empty
accumulator (result = None in the source). -/
def assembleFeature (startDate endDate : Int)
    (inputs : List (String × Table)) (feature : String) : Except Unit (Option Table) :=
  assembleLoop startDate endDate feature none inputs

/-- Python dict assignment d[k] = v on an association list: replace the
value in place when the key exists, else append the new pair. -/
def dictInsert (d : List (String × Option Table)) (k : String) (v : Option Table) :
    List (String × Option Table) :=
  if d.any (fun p => p.1 == k) then
    d.map (fun p => if p.1 == k then (k, v) else p)
  else d ++ [(k, v)]

/-- The outer feature loop of data_creator, building features_dict. -/
def featureLoop (startDate endDate : Int) (inputs : List (String × Table))
    (dict : List (String × Option Table)) :
    List String → Except Unit (List (String × Option Table))
  | [] => Except.ok dict
  | f :: rest =>
      match assembleFeature startDate endDate inputs f with
      | Except.error u => Except.error u
      | Except.ok r => featureLoop startDate endDate inputs (dictInsert dict f r) rest

/-- Shallow embedding of data_creator: for each requested feature, fold the
ticker tables through filter, project and size-directed join, and store the
outcome under the feature name in the result dictionary. An exception
raised inside any iteration propagates and aborts the whole call. -/
def data_creator (startDate endDate : Int) (inputs : List (String × Table))
    (features : List String) : Except Unit (List (String × Option Table)) :=
  featureLoop startDate endDate inputs [] features

/-- Modelled from the spec: the full outer join on the date key, the
reference join semantics of section 4.3 that is absent from src (the source
calls pyarrow Table.join with the default join type). Rows present in
either side are kept; a row missing from one side has that side's value
columns set to null; rows present in both sides are merged. -/
def fullOuterJoin (l r : Table) : Table :=
  { cols := l.cols ++ r.cols.map (suffixName l.cols),
    rows := leftOuterRows r.rows r.cols.length l.rows ++
      (r.rows.filter (fun rr => l.rows.all (fun lr => !(lr.1 == rr.1)))).map
        (fun rr => (rr.1, List.replicate l.cols.length (none : Cell) ++ rr.2)) }

/-- Modelled from the spec: the brute-force pairwise outer-join
accumulation of sections 4.3 and 8 (Scenario C), always folding the next
projected ticker table into the accumulator with a full outer join. -/
def bruteForceLoop (startDate endDate : Int) (feature : String)
    (acc : Option Table) : List (String × Table) → Except Unit (Option Table)
  | [] => Except.ok acc
  | entry :: rest =>
      match selectFeature feature entry.1 (applyRangeFilter startDate endDate entry.2) with
      | none => Except.error ()
      | some data =>
          match acc with
          | none => bruteForceLoop startDate endDate feature (some data) rest
          | some res => bruteForceLoop startDate endDate feature (some (fullOuterJoin res data)) rest

/-- Modelled from the spec: brute-force assembly of one feature, the
reference result Scenario C compares the implementation against: fold all
projected ticker tables with the full outer join, then sort by date. -/
def bruteForceAssemble (startDate endDate : Int)
    (inputs : List (String × Table)) (feature : String) : Except Unit (Option Table) :=
  match bruteForceLoop startDate endDate feature none inputs with
  | Except.error u => Except.error u
  | Except.ok none => Except.ok none
  | Except.ok (some t) => Except.ok (some (sortByDate t))

/-- First-occurrence deduplication of the requested feature names: the key
order that repeated Python dict assignment produces. -/
def dedupKeys (features : List String) : List String :=
  features.foldl (fun ks f => if f ∈ ks then ks else ks ++ [f]) []

/-- Sortedness of a row list by non-decreasing date. -/
def RowsSorted (l : List RowT) : Prop :=
  List.Sorted (fun a b : RowT => a.1 ≤ b.1) l

/-- Ticker AAA of Scenario A: price 10 on date 2, price 11 on date 3. -/
def tblAAA : Table := ⟨["price"], [(2, [some 10]), (3, [some 11])]⟩

/-- Ticker BBB of Scenario A: price 20 on date 3, price 21 on date 6. -/
def tblBBB : Table := ⟨["price"], [(3, [some 20]), (6, [some 21])]⟩

/-- A one-row ticker table with an observation only on date 1. -/
def tickA : Table := ⟨["f"], [(1, [some 5])]⟩

/-- A one-row ticker table with an observation only on date 2. -/
def tickB : Table := ⟨["f"], [(2, [some 7])]⟩

/-- First ticker of the three-ticker null-correctness input: date 1. -/
def tick1 : Table := ⟨["f"], [(1, [some 11])]⟩

/-- Second ticker of the three-ticker null-correctness input: dates 2, 3. -/
def tick2 : Table := ⟨["f"], [(2, [some 22]), (3, [some 23])]⟩

/-- Third ticker of the three-ticker null-correctness input: dates 1, 4, 5. -/
def tick3 : Table := ⟨["f"], [(1, [some 31]), (4, [some 34]), (5, [some 35])]⟩

/-- A malformed ticker table holding the date 1 twice. -/
def dupTable : Table := ⟨["price"], [(1, [some 5]), (1, [some 6])]⟩

/-- A one-row ticker table for the column-order claim. -/
def tikT1 : Table := ⟨["f"], [(1, [some 1])]⟩

/-- A two-row ticker table for the column-order claim. -/
def tikT2 : Table := ⟨["f"], [(1, [some 2]), (2, [some 3])]⟩

/-- A ticker table exposing only the feature column f1, not f2. -/
def c8table : Table := ⟨["f1"], [(1, [some 5])]⟩

/-- C1: the claim states full outer-join semantics — every date carried by
some ticker within [start_date, end_date] appears in the output. The code
violates it on the spec's own Scenario A: pyarrow Table.join is called
without a join_type and therefore performs its default left outer join,
although the adjacent comments say full_outer. With AAA carrying dates 2, 3
and BBB carrying dates 3, 6 in range [1, 10], BBB becomes the left side of
the second join and date 2 is dropped, even though the filtered AAA table
holds the in-range row (2, 10). -/
theorem c1_left_join_drops_inrange_date :
    assembleFeature 1 10 [("AAA", tblAAA), ("BBB", tblBBB)] "price" =
      Except.ok (some ⟨["BBB", "AAA"], [(3, [some 20, some 11]), (6, [some 21, none])]⟩) ∧
    ((2 : Int), [(some 10 : Cell)]) ∈ (applyRangeFilter 1 10 tblAAA).rows :=
  ⟨rfl, by decide⟩

/-- C2: the claim states that the CrossSectionalTable is identical for
every permutation of the ticker iteration order. Because the joins are
left outer joins, the order determines which dates survive: with ticker A
observed only on date 1 and ticker B only on date 2, processing [A, B]
yields the single date 2 while processing [B, A] yields the single date 1. -/
theorem c2_result_depends_on_ticker_order :
    assembleFeature 0 10 [("A", tickA), ("B", tickB)] "f" =
      Except.ok (some ⟨["B", "A"], [(2, [some 7, none])]⟩) ∧
    assembleFeature 0 10 [("B", tickB), ("A", tickA)] "f" =
      Except.ok (some ⟨["A", "B"], [(1, [some 5, none])]⟩) :=
  ⟨rfl, rfl⟩

/-- C3: the claim states that both branches of the row-count comparison
yield the same content as the brute-force pairwise full outer join. They
do not: the branches are left outer joins (pyarrow Table.join default), so
on tickers A (date 1) and B (date 2) the implementation returns only date
2 while the spec's brute-force full outer join keeps both dates. -/
theorem c3_heuristic_differs_from_bruteforce :
    assembleFeature 0 10 [("A", tickA), ("B", tickB)] "f" =
      Except.ok (some ⟨["B", "A"], [(2, [some 7, none])]⟩) ∧
    bruteForceAssemble 0 10 [("A", tickA), ("B", tickB)] "f" =
      Except.ok (some ⟨["A", "B"], [(1, [some 5, none]), (2, [none, some 7])]⟩) :=
  ⟨rfl, rfl⟩

/-- C6: the claim states that a cell (d, t) of the output is null exactly
when ticker t has no filtered observation at date d, and otherwise carries
that observation unchanged. The left outer joins break this: with tickers
t1 (date 1), t2 (dates 2, 3), t3 (dates 1, 4, 5), the final output holds
date 1 with a null in the t1 column, although the filtered t1 table holds
the row (1, 11) — the row was discarded by an intermediate left join. -/
theorem c6_null_despite_observation :
    assembleFeature 0 10 [("t1", tick1), ("t2", tick2), ("t3", tick3)] "f" =
      Except.ok (some ⟨["t3", "t2", "t1"],
        [(1, [some 31, none, none]), (4, [some 34, none, none]), (5, [some 35, none, none])]⟩) ∧
    ((1 : Int), [(some 11 : Cell)]) ∈ (applyRangeFilter 0 10 tick1).rows :=
  ⟨rfl, by decide⟩

/-- C4, counterexample: the claim states that the output date column is
strictly ascending with duplicate dates deduplicated. The code only sorts
and never deduplicates: a single ticker carrying date 1 twice produces an
output in which the date key 1 appears twice. -/
theorem c4_duplicate_dates_survive :
    data_creator 0 10 [("T", dupTable)] ["price"] =
      Except.ok [("price", some ⟨["T"], [(1, [some 5]), (1, [some 6])]⟩)] :=
  rfl

/-- C7, counterexample: the claim states that the ticker columns follow
the input mapping's key order. The join direction chosen by the row-count
comparison makes the newer ticker the left side whenever it is at least as
long as the accumulator, placing its column first: tickers [T1, T2] with
row counts 1 and 2 produce the column order [T2, T1]. -/
theorem c7_column_order_not_mapping_order :
    data_creator 0 10 [("T1", tikT1), ("T2", tikT2)] ["f"] =
      Except.ok [("f", some ⟨["T2", "T1"], [(1, [some 2, some 1]), (2, [some 3, none])]⟩)] ∧
    (["T2", "T1"] : List String) ≠ ["T1", "T2"] :=
  ⟨rfl, by decide⟩

/-- C8, counterexample: the claim states that one feature's failure leaves
the other features' results available. The code has no per-feature
isolation: with a single ticker exposing only f1, requesting [f1, f2]
raises on f2 and the whole data_creator call aborts, so the successfully
assembled f1 table is lost as well. -/
theorem c8_failure_aborts_all_features :
    data_creator 0 10 [("T", c8table)] ["f1", "f2"] = Except.error () :=
  rfl

/-- C9, counterexample: the claim states that an empty ticker mapping
yields an empty result table per feature or an EmptyInputError. The code
does neither: the accumulator stays None through the empty inner loop, so
the call returns successfully with the feature mapped to None, which is
neither a table nor an error. -/
theorem c9_empty_input_yields_none :
    data_creator 0 10 ([] : List (String × Table)) ["f"] =
      Except.ok [("f", (none : Option Table))] :=
  rfl

theorem filterByMask_map (p : RowT → Bool) (l : List RowT) :
    filterByMask l (l.map p) = l.filter p := by
  induction l with
  | nil => rfl
  | cons r rs ih =>
      simp only [List.map_cons, filterByMask, List.filter_cons]
      by_cases h : p r <;> simp [h, ih]

/-- C5: the date-range filter keeps exactly the rows whose (canonically
normalized, integer-modelled) date d satisfies start_date ≤ d and
d ≤ end_date, both bounds closed; data_creator applies it to every ticker
table inside the loop, before projection and joining. -/
theorem c5_range_filter_closed_bounds (s e : Int) (t : Table) :
    (applyRangeFilter s e t).rows =
      t.rows.filter (fun r => decide (s ≤ r.1) && decide (r.1 ≤ e)) :=
  filterByMask_map (fun r => decide (s ≤ r.1) && decide (r.1 ≤ e)) t.rows

theorem mem_insertRow {x r : RowT} {l : List RowT} :
    x ∈ insertRow r l ↔ x = r ∨ x ∈ l := by
  induction l with
  | nil => simp [insertRow]
  | cons a as ih =>
      unfold insertRow
      by_cases h : r.1 ≤ a.1
      · simp only [if_pos h, List.mem_cons]
      · simp only [if_neg h, List.mem_cons, ih]
        tauto

theorem insertRow_sorted {r : RowT} {l : List RowT} (h : RowsSorted l) :
    RowsSorted (insertRow r l) := by
  induction l with
  | nil => exact List.sorted_singleton r
  | cons a as ih =>
      rcases List.sorted_cons.mp h with ⟨ha, has⟩
      unfold insertRow
      by_cases hle : r.1 ≤ a.1
      · rw [if_pos hle]
        refine List.sorted_cons.mpr ⟨?_, h⟩
        intro b hb
        rcases List.mem_cons.mp hb with rfl | hb2
        · exact hle
        · exact le_trans hle (ha b hb2)
      · rw [if_neg hle]
        refine List.sorted_cons.mpr ⟨?_, ih has⟩
        intro b hb
        rcases mem_insertRow.mp hb with rfl | hb2
        · exact le_of_not_le hle
        · exact ha b hb2

theorem sortRows_sorted (l : List RowT) : RowsSorted (sortRows l) := by
  induction l with
  | nil => exact List.sorted_nil
  | cons r rs ih => exact insertRow_sorted ih

theorem accStep_shape (s e : Int) (f : String) (acc : Option Table)
    (entry : String × Table) :
    accStep s e f acc entry = Except.error () ∨
    ∃ t : Table, accStep s e f acc entry = Except.ok (some (sortByDate t)) := by
  unfold accStep
  cases selectFeature f entry.1 (applyRangeFilter s e entry.2) with
  | none => exact Or.inl rfl
  | some data =>
      cases acc with
      | none => exact Or.inr ⟨data, rfl⟩
      | some res =>
          dsimp only
          by_cases hlen : res.rows.length > data.rows.length
          · rw [if_pos hlen]
            exact Or.inr ⟨joinLeftOuter res data, rfl⟩
          · rw [if_neg hlen]
            exact Or.inr ⟨joinLeftOuter data res, rfl⟩

theorem accStep_ok_sorted {s e : Int} {f : String} {acc : Option Table}
    {entry : String × Table} {w : Table}
    (h : accStep s e f acc entry = Except.ok (some w)) : RowsSorted w.rows := by
  rcases accStep_shape s e f acc entry with hs | ⟨t, hs⟩
  · rw [hs] at h
    cases h
  · rw [hs] at h
    simp only [Except.ok.injEq, Option.some.injEq] at h
    subst h
    exact sortRows_sorted t.rows

theorem assembleLoop_sorted (s e : Int) (f : String) :
    ∀ (inputs : List (String × Table)) (acc : Option Table) (w : Table),
      (∀ u : Table, acc = some u → RowsSorted u.rows) →
      assembleLoop s e f acc inputs = Except.ok (some w) → RowsSorted w.rows := by
  intro inputs
  induction inputs with
  | nil =>
      intro acc w hacc h
      simp only [assembleLoop, Except.ok.injEq] at h
      exact hacc w h
  | cons entry rest ih =>
      intro acc w hacc h
      cases hstep : accStep s e f acc entry with
      | error u =>
          simp only [assembleLoop, hstep] at h
          cases h
      | ok acc2 =>
          simp only [assembleLoop, hstep] at h
          refine ih acc2 w ?_ h
          intro u hu
          subst hu
          exact accStep_ok_sorted hstep

theorem mem_dictInsert {d : List (String × Option Table)} {k f : String}
    {v r : Option Table} (h : (f, r) ∈ dictInsert d k v) :
    (f, r) ∈ d ∨ ((f, r) : String × Option Table) = (k, v) := by
  unfold dictInsert at h
  split at h
  · rcases List.mem_map.mp h with ⟨p, hp, he⟩
    by_cases hk : p.1 == k
    · rw [if_pos hk] at he
      exact Or.inr he.symm
    · rw [if_neg hk] at he
      exact Or.inl (he ▸ hp)
  · rcases List.mem_append.mp h with h1 | h1
    · exact Or.inl h1
    · exact Or.inr (List.mem_singleton.mp h1)

theorem featureLoop_mem (s e : Int) (inputs : List (String × Table)) :
    ∀ (features : List String) (dict m : List (String × Option Table))
      (f : String) (r : Option Table),
      featureLoop s e inputs dict features = Except.ok m → (f, r) ∈ m →
      (f, r) ∈ dict ∨ assembleFeature s e inputs f = Except.ok r := by
  intro features
  induction features with
  | nil =>
      intro dict m f r h hm
      simp only [featureLoop, Except.ok.injEq] at h
      subst h
      exact Or.inl hm
  | cons g rest ih =>
      intro dict m f r h hm
      cases hg : assembleFeature s e inputs g with
      | error u =>
          simp only [featureLoop, hg] at h
          cases h
      | ok r0 =>
          simp only [featureLoop, hg] at h
          rcases ih (dictInsert dict g r0) m f r h hm with hin | hok
          · rcases mem_dictInsert hin with hin2 | heq
            · exact Or.inl hin2
            · injection heq with h1 h2
              subst h1
              subst h2
              exact Or.inr hg
          · exact Or.inr hok

/-- C4 (amended): the output date column is sorted in non-decreasing
order, but repeated date keys coming from malformed input are preserved,
not deduplicated: the code sorts after every join and never removes
duplicates. -/
theorem c4_amended_dates_nondecreasing (s e : Int) (inputs : List (String × Table))
    (features : List String) (m : List (String × Option Table)) (f : String) (w : Table)
    (hm : data_creator s e inputs features = Except.ok m)
    (hf : (f, some w) ∈ m) : RowsSorted w.rows := by
  rcases featureLoop_mem s e inputs features [] m f (some w) hm hf with h | h
  · cases h
  · exact assembleLoop_sorted s e f inputs none w (fun u hu => by cases hu) h

/-- Witness for the amended C4 at the duplicate-date input. -/
theorem c4_amended_witness :
    RowsSorted [((1 : Int), [(some 5 : Cell)]), (1, [some 6])] :=
  c4_amended_dates_nondecreasing 0 10 [("T", dupTable)] ["price"]
    [("price", some ⟨["T"], [(1, [some 5]), (1, [some 6])]⟩)] "price"
    ⟨["T"], [(1, [some 5]), (1, [some 6])]⟩ rfl (by decide)

/-- C9 (amended): with an empty ticker mapping, data_creator returns
successfully and every requested feature is mapped to None (the
accumulator never leaves its initial state), rather than to an empty table
or an EmptyInputError. -/
theorem c9_amended_empty_input_maps_to_none (s e : Int) (features : List String)
    (m : List (String × Option Table)) (p : String × Option Table)
    (hm : data_creator s e ([] : List (String × Table)) features = Except.ok m)
    (hp : p ∈ m) : p.2 = (none : Option Table) := by
  obtain ⟨f, r⟩ := p
  rcases featureLoop_mem s e [] features [] m f r hm hp with h | h
  · cases h
  · have hnil : assembleFeature s e ([] : List (String × Table)) f = Except.ok none := rfl
    rw [hnil] at h
    simp only [Except.ok.injEq] at h
    exact h.symm

/-- Witness for the amended C9 at a one-feature request. -/
theorem c9_amended_witness :
    ((("f" : String), (none : Option Table))).2 = (none : Option Table) :=
  c9_amended_empty_input_maps_to_none 0 10 ["f"] [("f", none)] ("f", none) rfl
    (by decide)

theorem dictInsert_keys (d : List (String × Option Table)) (k : String)
    (v : Option Table) :
    (dictInsert d k v).map Prod.fst =
      if k ∈ d.map Prod.fst then d.map Prod.fst else d.map Prod.fst ++ [k] := by
  have hiff : (d.any (fun p => p.1 == k) = true) ↔ k ∈ d.map Prod.fst := by
    rw [List.any_eq_true]
    constructor
    · rintro ⟨p, hp, hpk⟩
      exact List.mem_map.mpr ⟨p, hp, beq_iff_eq.mp hpk⟩
    · intro h
      rcases List.mem_map.mp h with ⟨p, hp, hpe⟩
      exact ⟨p, hp, beq_iff_eq.mpr hpe⟩
  unfold dictInsert
  by_cases hk : k ∈ d.map Prod.fst
  · rw [if_pos (hiff.mpr hk), if_pos hk, List.map_map]
    refine List.map_congr_left ?_
    intro p hp
    by_cases hpk : p.1 == k
    · have hpe : p.1 = k := beq_iff_eq.mp hpk
      simp [Function.comp, hpk, hpe]
    · simp [Function.comp, hpk]
  · rw [if_neg (fun hc => hk (hiff.mp hc)), if_neg hk]
    simp

theorem featureLoop_keys (s e : Int) (inputs : List (String × Table)) :
    ∀ (features : List String) (dict m : List (String × Option Table)),
      featureLoop s e inputs dict features = Except.ok m →
      m.map Prod.fst =
        features.foldl (fun ks f => if f ∈ ks then ks else ks ++ [f])
          (dict.map Prod.fst) := by
  intro features
  induction features with
  | nil =>
      intro dict m h
      simp only [featureLoop, Except.ok.injEq] at h
      subst h
      rfl
  | cons g rest ih =>
      intro dict m h
      cases hg : assembleFeature s e inputs g with
      | error u =>
          simp only [featureLoop, hg] at h
          cases h
      | ok r0 =>
          simp only [featureLoop, hg] at h
          rw [List.foldl_cons, ← dictInsert_keys dict g r0]
          exact ih (dictInsert dict g r0) m h

/-- C10: on every input on which data_creator returns, the key list of the
returned mapping equals the distinct requested feature names in
first-occurrence order; a feature requested more than once collapses into
a single key and no key outside the requested names appears. -/
theorem c10_result_keys (s e : Int) (inputs : List (String × Table))
    (features : List String) (m : List (String × Option Table))
    (hm : data_creator s e inputs features = Except.ok m) :
    m.map Prod.fst = dedupKeys features :=
  featureLoop_keys s e inputs features [] m hm

/-- Witness for C10 at a duplicated feature request. -/
theorem c10_witness :
    ([(("f" : String), (none : Option Table)), ("g", none)]).map Prod.fst =
      dedupKeys ["f", "g", "f"] :=
  c10_result_keys 0 10 [] ["f", "g", "f"] [("f", none), ("g", none)] rfl

theorem featureLoop_error (s e : Int) (inputs : List (String × Table)) (f : String)
    (he : assembleFeature s e inputs f = Except.error ()) :
    ∀ (features : List String) (dict : List (String × Option Table)),
      f ∈ features → featureLoop s e inputs dict features = Except.error () := by
  intro features
  induction features with
  | nil =>
      intro dict h
      cases h
  | cons g rest ih =>
      intro dict hmem
      cases hg : assembleFeature s e inputs g with
      | error u =>
          simp only [featureLoop, hg]
      | ok r0 =>
          simp only [featureLoop, hg]
          rcases List.mem_cons.mp hmem with rfl | hmem2
          · rw [hg] at he
            cases he
          · exact ih (dictInsert dict g r0) hmem2

/-- C8 (amended): the feature loop has no per-feature isolation: as soon
as one requested feature's assembly fails (for example because its column
is missing from some ticker table), the whole data_creator call aborts
with that error, and no result is delivered for any feature, not even for
those whose own assembly succeeds. -/
theorem c8_amended_failure_aborts_call (s e : Int) (inputs : List (String × Table))
    (features : List String) (f : String) (hf : f ∈ features)
    (he : assembleFeature s e inputs f = Except.error ()) :
    data_creator s e inputs features = Except.error () :=
  featureLoop_error s e inputs f he features [] hf

/-- Witness for the amended C8 at a ticker that lacks the feature f2. -/
theorem c8_amended_witness :
    data_creator 0 10 [("T", c8table)] ["f2", "f1"] = Except.error () :=
  c8_amended_failure_aborts_call 0 10 [("T", c8table)] ["f2", "f1"] "f2"
    (List.mem_cons_self "f2" ["f1"]) rfl

theorem selectFeature_cols {f tk : String} {t d : Table}
    (h : selectFeature f tk t = some d) : d.cols = [tk] := by
  unfold selectFeature at h
  split at h
  · cases h
  · simp only [Option.some.injEq] at h
    subst h
    rfl

theorem accStep_ok_some {s e : Int} {f : String} {acc acc2 : Option Table}
    {entry : String × Table}
    (h : accStep s e f acc entry = Except.ok acc2) : ∃ v : Table, acc2 = some v := by
  rcases accStep_shape s e f acc entry with hs | ⟨t, hs⟩
  · rw [hs] at h
    cases h
  · rw [hs] at h
    simp only [Except.ok.injEq] at h
    exact ⟨sortByDate t, h.symm⟩

theorem accStep_cols_none {s e : Int} {f : String} {entry : String × Table} {w : Table}
    (h : accStep s e f none entry = Except.ok (some w)) : w.cols = [entry.1] := by
  unfold accStep at h
  split at h
  · cases h
  · rename_i data hsel
    simp only [Except.ok.injEq, Option.some.injEq] at h
    subst h
    show data.cols = [entry.1]
    exact selectFeature_cols hsel

theorem accStep_cols_some {s e : Int} {f : String} {entry : String × Table}
    {u w : Table} (hu : entry.1 ∉ u.cols)
    (h : accStep s e f (some u) entry = Except.ok (some w)) :
    List.Perm w.cols (entry.1 :: u.cols) := by
  unfold accStep at h
  split at h
  · cases h
  · rename_i data hsel
    have hdc : data.cols = [entry.1] := selectFeature_cols hsel
    dsimp only at h
    split at h
    · simp only [Except.ok.injEq, Option.some.injEq] at h
      subst h
      show List.Perm (joinLeftOuter u data).cols (entry.1 :: u.cols)
      unfold joinLeftOuter
      dsimp only
      rw [hdc]
      simp only [List.map_cons, List.map_nil]
      rw [show suffixName u.cols entry.1 = entry.1 from if_neg hu]
      exact List.perm_append_singleton entry.1 u.cols
    · simp only [Except.ok.injEq, Option.some.injEq] at h
      subst h
      show List.Perm (joinLeftOuter data u).cols (entry.1 :: u.cols)
      unfold joinLeftOuter
      dsimp only
      rw [hdc]
      have hmap : u.cols.map (suffixName [entry.1]) = u.cols := by
        have hfix : ∀ c ∈ u.cols, suffixName [entry.1] c = id c := by
          intro c hc
          have hcne : c ∉ ([entry.1] : List String) := by
            intro hmem
            rcases List.mem_singleton.mp hmem with rfl
            exact hu hc
          unfold suffixName
          rw [if_neg hcne]
          rfl
        rw [List.map_congr_left hfix, List.map_id]
      rw [hmap]
      exact List.Perm.refl _

theorem assembleLoop_cols (s e : Int) (f : String) :
    ∀ (inputs : List (String × Table)) (u w : Table),
      (inputs.map Prod.fst).Nodup →
      (∀ k ∈ inputs.map Prod.fst, k ∉ u.cols) →
      assembleLoop s e f (some u) inputs = Except.ok (some w) →
      List.Perm w.cols (inputs.map Prod.fst ++ u.cols) := by
  intro inputs
  induction inputs with
  | nil =>
      intro u w hnd hdisj h
      simp only [assembleLoop, Except.ok.injEq, Option.some.injEq] at h
      subst h
      exact List.Perm.refl _
  | cons entry rest ih =>
      intro u w hnd hdisj h
      cases hstep : accStep s e f (some u) entry with
      | error uu =>
          simp only [assembleLoop, hstep] at h
          cases h
      | ok acc2 =>
          simp only [assembleLoop, hstep] at h
          rcases accStep_ok_some hstep with ⟨v, rfl⟩
          have hv : List.Perm v.cols (entry.1 :: u.cols) :=
            accStep_cols_some (hdisj entry.1 (by simp)) hstep
          simp only [List.map_cons] at hnd
          rcases List.nodup_cons.mp hnd with ⟨hne, hndr⟩
          have hdisj2 : ∀ k ∈ rest.map Prod.fst, k ∉ v.cols := by
            intro k hk hkv
            rcases List.mem_cons.mp (hv.mem_iff.mp hkv) with rfl | hk2
            · exact hne hk
            · exact hdisj k (List.mem_cons_of_mem entry.1 hk) hk2
          have hw : List.Perm w.cols (rest.map Prod.fst ++ v.cols) :=
            ih v w hndr hdisj2 h
          exact (hw.trans (List.Perm.append_left _ hv)).trans List.perm_middle

theorem assembleFeature_cols (s e : Int) (f : String)
    (inputs : List (String × Table)) (w : Table)
    (hnd : (inputs.map Prod.fst).Nodup)
    (h : assembleFeature s e inputs f = Except.ok (some w)) :
    List.Perm w.cols (inputs.map Prod.fst) := by
  cases inputs with
  | nil =>
      simp only [assembleFeature, assembleLoop, Except.ok.injEq] at h
      cases h
  | cons entry rest =>
      unfold assembleFeature at h
      cases hstep : accStep s e f none entry with
      | error uu =>
          simp only [assembleLoop, hstep] at h
          cases h
      | ok acc2 =>
          simp only [assembleLoop, hstep] at h
          rcases accStep_ok_some hstep with ⟨v, rfl⟩
          have hvc : v.cols = [entry.1] := accStep_cols_none hstep
          simp only [List.map_cons] at hnd
          rcases List.nodup_cons.mp hnd with ⟨hne, hndr⟩
          have hdisj : ∀ k ∈ rest.map Prod.fst, k ∉ v.cols := by
            intro k hk hkv
            rw [hvc] at hkv
            rcases List.mem_singleton.mp hkv with rfl
            exact hne hk
          have hw : List.Perm w.cols (rest.map Prod.fst ++ v.cols) :=
            assembleLoop_cols s e f rest v w hndr hdisj h
          rw [hvc] at hw
          exact hw.trans (List.perm_append_singleton _ _)

/-- C7 (amended): every output table carries exactly one value column per
ticker of the input mapping — the column-name list is a permutation of the
mapping's key list, with the date key structurally first — but the ticker
column order is determined by the size-driven join directions, not by the
input mapping's key order. -/
theorem c7_amended_columns_permutation (s e : Int) (inputs : List (String × Table))
    (features : List String) (m : List (String × Option Table)) (f : String)
    (w : Table) (hnd : (inputs.map Prod.fst).Nodup)
    (hm : data_creator s e inputs features = Except.ok m)
    (hf : (f, some w) ∈ m) : List.Perm w.cols (inputs.map Prod.fst) := by
  rcases featureLoop_mem s e inputs features [] m f (some w) hm hf with h | h
  · cases h
  · exact assembleFeature_cols s e f inputs w hnd h

/-- Witness for the amended C7 at the two-ticker input on which the column
order reverses. -/
theorem c7_amended_witness :
    List.Perm (Table.mk ["T2", "T1"] [(1, [some 2, some 1]), (2, [some 3, none])]).cols
      ["T1", "T2"] :=
  c7_amended_columns_permutation 0 10 [("T1", tikT1), ("T2", tikT2)] ["f"]
    [("f", some ⟨["T2", "T1"], [(1, [some 2, some 1]), (2, [some 3, none])]⟩)] "f"
    ⟨["T2", "T1"], [(1, [some 2, some 1]), (2, [some 3, none])]⟩
    (by decide) rfl (by decide)

end CrossSectional
